import Mathlib

/-!
Verification of the COBS (Consistent Overhead Byte Stuffing) codec of this
repository.  Bytes are modelled as natural numbers (values 0..255); buffers as
`List Nat`; `size_t` as `Nat`, with an explicit `% 2 ^ 64` where unsigned
wrap-around matters.  Pointers into the destination buffer are modelled as
indices; every store the C++ code performs is additionally recorded in an
explicit write trace `List (Nat × Nat)` of (index, value) pairs so that
out-of-bounds stores are observable.
-/

namespace Cobs

/-- Status of `cobs::EncodeResult` (src/lib/cobs.hpp). -/
inductive EncodeStatus
  | OK
  | WRITE_OVERFLOW
deriving DecidableEq

/-- Mirror of `cobs::EncodeResult` (src/lib/cobs.hpp): status and number of
bytes produced. -/
structure EncodeResult where
  status : EncodeStatus
  produced : Nat
deriving DecidableEq

/-- Status of `cobs::DecodeResult` (src/lib/cobs.hpp). -/
inductive DecodeStatus
  | OK
  | WRITE_OVERFLOW
  | READ_OVERFLOW
  | UNEXPECTED_ZERO
deriving DecidableEq

/-- Mirror of `cobs::DecodeResult` (src/lib/cobs.hpp): status, bytes consumed,
bytes produced. -/
structure DecodeResult where
  status : DecodeStatus
  consumed : Nat
  produced : Nat
deriving DecidableEq

/-- `cobs::max_encoded_length` (src/lib/cobs.hpp, lines 95-102):
`decoded_length + decoded_length / 0xfe + 2`, in unbounded arithmetic. -/
def maxEncodedLength (decoded_length : Nat) : Nat :=
  decoded_length + decoded_length / 0xfe + 2

/-- `cobs::max_encoded_length` as actually computed in 64-bit `size_t`
arithmetic: unsigned additions wrap modulo `2 ^ 64`. -/
def maxEncodedLength64 (decoded_length : Nat) : Nat :=
  (decoded_length + decoded_length / 0xfe + 2) % 2 ^ 64

/-- `cobs::max_decoded_length` (src/lib/cobs.hpp, lines 114-121):
`encoded_length - 2` (the caller must ensure `encoded_length >= 2`). -/
def maxDecodedLength (encoded_length : Nat) : Nat :=
  encoded_length - 2

/-- Loop of `cobs::encode` (src/unnamed/part_000, lines 47-72).

State mapping: with `dst_start` at index 0, the reachable states of the C++
loop satisfy `dst_offset = acc.length` and
`dst_copy = acc.length + 1 + chunk.length`, where `acc` holds the destination
bytes that are already fully determined (all closed chunks) and `chunk` holds
the data bytes of the chunk currently being assembled (its offset slot at
index `acc.length` is still pending, exactly as in the two-cursor C++ code).
`ws` is the exact trace of the stores `*(p) = v` the C++ code performs, as
(index, value) pairs, including stores past `dst_len` (the C++ code does not
bounds-check the offset write-backs).  The `List Nat` component of the result
is the contents of the destination on OK; on WRITE_OVERFLOW only the write
trace is meaningful. -/
def encodeGo (dstLen : Nat) : List Nat → List Nat → List Nat → List (Nat × Nat) →
    EncodeResult × List Nat × List (Nat × Nat)
  | [], acc, chunk, ws =>
    -- write back the final offset, unchecked in the C++ code (`dst_copy -
    -- dst_offset` equals `chunk.length + 1` here), then append the zero
    -- marker if possible (`dst_copy` equals `acc.length + 1 + chunk.length`)
    if acc.length + 1 + chunk.length ≥ dstLen then
      (⟨EncodeStatus.WRITE_OVERFLOW, 0⟩, acc ++ (chunk.length + 1) :: chunk,
        ws ++ [(acc.length, chunk.length + 1)])
    else
      (⟨EncodeStatus.OK, acc.length + 1 + chunk.length + 1⟩,
        (acc ++ (chunk.length + 1) :: chunk) ++ [0],
        (ws ++ [(acc.length, chunk.length + 1)]) ++ [(acc.length + 1 + chunk.length, 0)])
  | b :: rest, acc, chunk, ws =>
    if b = 0 then
      -- write back the offset (unchecked), open a new chunk
      encodeGo dstLen rest (acc ++ (chunk.length + 1) :: chunk) []
        (ws ++ [(acc.length, chunk.length + 1)])
    else
      -- append the data byte if possible
      if acc.length + 1 + chunk.length ≥ dstLen then
        (⟨EncodeStatus.WRITE_OVERFLOW, 0⟩, acc, ws)
      else
        -- unless we hit the maximum offset (dst_copy - dst_offset = 0xff),
        -- keep copying
        if chunk.length + 2 = 255 then
          encodeGo dstLen rest (acc ++ 255 :: (chunk ++ [b])) []
            ((ws ++ [(acc.length + 1 + chunk.length, b)]) ++ [(acc.length, 255)])
        else
          encodeGo dstLen rest acc (chunk ++ [b])
            (ws ++ [(acc.length + 1 + chunk.length, b)])

/-- `cobs::encode` (src/unnamed/part_000, lines 7-73). -/
def encode (src : List Nat) (dstLen : Nat) :
    EncodeResult × List Nat × List (Nat × Nat) :=
  encodeGo dstLen src [] [] []

/-- Index of the first zero byte of a list, if any (the inner copy loop of
`cobs::decode` stops at the first zero among the data bytes it copies). -/
def firstZero : List Nat → Option Nat
  | [] => none
  | b :: rest => if b = 0 then some 0 else (firstZero rest).map (· + 1)

/-- Loop of `cobs::decode` (src/unnamed/part_000, lines 137-185).

`rest` is the part of the source buffer that has not been read yet, `offset`
the offset byte read just before this iteration, `c` the number of source
bytes consumed so far (including that offset byte), `out` the destination
bytes written so far (every destination store of this loop is bounds-checked
by the C++ code, so a plain list suffices).  The result pairs the returned
`DecodeResult` with the final destination contents. -/
def decodeGo (dstLen : Nat) (rest : List Nat) (offset c : Nat) (out : List Nat) :
    DecodeResult × List Nat :=
  -- src_copy_end = src + offset - 1, dst_copy_end = dst + offset - 1
  let n := offset - 1
  if n > rest.length then
    (⟨DecodeStatus.READ_OVERFLOW, 0, 0⟩, out)
  else if out.length + n > dstLen then
    (⟨DecodeStatus.WRITE_OVERFLOW, 0, 0⟩, out)
  else
    let seg := rest.take n
    match firstZero seg with
    | some i =>
      -- a zero among the copied data bytes
      (⟨DecodeStatus.UNEXPECTED_ZERO, c + i + 1, 0⟩, out ++ seg.take i)
    | none =>
      match hdrop : rest.drop n with
      | [] => (⟨DecodeStatus.READ_OVERFLOW, 0, 0⟩, out ++ seg)
      | next :: rest2 =>
        if next = 0 then
          (⟨DecodeStatus.OK, c + n + 1, out.length + n⟩, out ++ seg)
        else if offset = 255 then
          decodeGo dstLen rest2 next (c + n + 1) (out ++ seg)
        else
          -- the last offset was not 0xff: output a zero
          if out.length + n ≥ dstLen then
            (⟨DecodeStatus.WRITE_OVERFLOW, 0, 0⟩, out ++ seg)
          else
            decodeGo dstLen rest2 next (c + n + 1) ((out ++ seg) ++ [0])
termination_by rest.length
decreasing_by
  all_goals
    have hlen := congrArg List.length hdrop
    simp [List.length_drop] at hlen
    omega

/-- `cobs::decode` (src/unnamed/part_000, lines 78-188). -/
def decode (src : List Nat) (dstLen : Nat) : DecodeResult × List Nat :=
  match src with
  | [] => (⟨DecodeStatus.READ_OVERFLOW, 0, 0⟩, [])
  | b :: rest =>
    if b = 0 then (⟨DecodeStatus.UNEXPECTED_ZERO, 1, 0⟩, [])
    else decodeGo dstLen rest b 1 []

/-- Length of the first encoder chunk of `l`: the number of leading non-zero
bytes, capped at `cap` (the encoder caps a chunk at 254 data bytes). -/
def chunkLen : List Nat → Nat → Nat
  | [], _ => 0
  | b :: rest, cap => if b = 0 ∨ cap = 0 then 0 else 1 + chunkLen rest (cap - 1)

/-- Reference form of the encoder output on unlimited destination capacity,
with the first chunk materialized up front; proved below to be exactly what
`encode` produces (theorem `encodeGo_spec`).  Used to structure the
round-trip and length-bound proofs. -/
def encSpec (src : List Nat) : List Nat :=
  if h1 : 254 ≤ src.length ∧ chunkLen src 254 = 254 then
    (255 :: src.take 254) ++ encSpec (src.drop 254)
  else if h2 : src.length ≤ chunkLen src 254 then
    ((chunkLen src 254 + 1) :: src.take (chunkLen src 254)) ++ [0]
  else
    ((chunkLen src 254 + 1) :: src.take (chunkLen src 254)) ++
      encSpec (src.drop (chunkLen src 254 + 1))
termination_by src.length
decreasing_by
  · simp [List.length_drop]
    omega
  · simp [List.length_drop]
    omega

/-- Loop of `cobs::encode` in src/cobs_lib/cobs.cpp (lines 68-104), the
"reduced" encoder.  `dst` is the destination buffer with its pre-existing
contents (the C++ code returns a count that may cover an index it never
wrote, so the prior contents are observable); `offsetIdx`, `copyIdx` and
`offset` mirror `dst_offset_idx`, `dst_copy_idx` and `offset`.  The
`debug_assert` bounds checks are modelled as no-ops (release build);
`List.set` ignores stores past the end of `dst`, so `dst` must be taken long
enough to observe all stores.  Returns the C++ return value `dst_copy_idx`
paired with the final buffer contents. -/
def encodeLibGo : List Nat → List Nat → Nat → Nat → Nat → Nat × List Nat
  | [], dst, offsetIdx, copyIdx, offset =>
    -- write back the offset only if it is larger than 1, then append the
    -- frame marker
    let dst1 := if offset ≠ 1 then dst.set offsetIdx offset else dst
    (copyIdx + 1, dst1.set copyIdx 0)
  | b :: rest, dst, offsetIdx, copyIdx, offset =>
    if b = 0 then
      encodeLibGo rest (dst.set offsetIdx offset) copyIdx (copyIdx + 1) 1
    else
      let dst1 := dst.set copyIdx b
      if offset + 1 = 255 then
        encodeLibGo rest (dst1.set offsetIdx 255) (copyIdx + 1) (copyIdx + 2) 1
      else
        encodeLibGo rest dst1 offsetIdx (copyIdx + 1) (offset + 1)

/-- `cobs::encode` of src/cobs_lib/cobs.cpp (lines 68-104). -/
def encodeLib (src dst : List Nat) : Nat × List Nat :=
  encodeLibGo src dst 0 1 1

/-- Write the bytes `seg` into `dst` starting at index `i` (the inner copy
loop of `cobs::decode` in src/cobs_lib/cobs.cpp). -/
def listWriteSeq (dst : List Nat) (i : Nat) (seg : List Nat) : List Nat :=
  match seg with
  | [] => dst
  | b :: seg2 => listWriteSeq (dst.set i b) (i + 1) seg2

/-- Loop of `cobs::decode` in src/cobs_lib/cobs.cpp (lines 114-134), with
explicit fuel.  `zeroOffset` is read once before the loop (line 112) and is
never reassigned inside the loop body in the C++ source, which is why it is a
fixed parameter here.  One fuel unit is one iteration of the while loop; the
function returns `some (dst_idx, dst)` if the loop exits normally within the
given fuel and `none` otherwise. -/
def decodeLibLoop (src : List Nat) (zeroOffset : Nat) :
    Nat → Nat → Nat → Bool → List Nat → Option (Nat × List Nat)
  | 0, _, _, _, _ => none
  | fuel + 1, srcIdx, dstIdx, writeZero, dst =>
    if zeroOffset = 0 then some (dstIdx, dst)
    else
      let srcZeroIdx := srcIdx + zeroOffset
      let seg := (src.drop (srcIdx + 1)).take (srcZeroIdx - (srcIdx + 1))
      let dst1 := listWriteSeq dst dstIdx seg
      let dstIdx1 := dstIdx + seg.length
      let dst2 := if writeZero then dst1.set dstIdx1 0 else dst1
      let dstIdx2 := if writeZero then dstIdx1 + 1 else dstIdx1
      decodeLibLoop src zeroOffset fuel srcZeroIdx dstIdx2 (zeroOffset ≠ 255) dst2

/-- `cobs::decode` of src/cobs_lib/cobs.cpp (lines 106-137), with explicit
fuel for the while loop.  On empty source the initial `debug_assert` fails
(`none`); otherwise `zero_offset` is read from `src[0]` and the loop runs. -/
def decodeLib (fuel : Nat) (src dst : List Nat) : Option (Nat × List Nat) :=
  match src with
  | [] => none
  | z :: _ => decodeLibLoop src z fuel 0 0 false dst

/-- A byte sequence is a valid encoding when it is the output of a successful
run of `cobs::encode` on some byte sequence (with the destination sized by
`max_encoded_length`). -/
def ValidEncoding (e : List Nat) : Prop :=
  ∃ d : List Nat, (∀ b ∈ d, b < 256) ∧
    e = (encode d (maxEncodedLength d.length)).2.1

/-! ### Helper lemmas about `chunkLen` -/

/-- A chunk never extends past the end of the list. -/
theorem chunkLen_le_length (l : List Nat) : ∀ cap, chunkLen l cap ≤ l.length := by
  induction l with
  | nil => intro cap; simp [chunkLen]
  | cons b rest ih =>
    intro cap
    simp only [chunkLen, List.length_cons]
    split
    · omega
    · have := ih (cap - 1)
      omega

/-- A chunk never exceeds the cap. -/
theorem chunkLen_le_cap (l : List Nat) : ∀ cap, chunkLen l cap ≤ cap := by
  induction l with
  | nil => intro cap; simp [chunkLen]
  | cons b rest ih =>
    intro cap
    simp only [chunkLen]
    split
    · omega
    · have := ih (cap - 1)
      omega

/-- On a list starting with `ch.length` non-zero bytes followed by a zero,
the chunk is exactly `ch` (provided `ch` fits under the cap). -/
theorem chunkLen_append_zero (ch : List Nat) (hch : ∀ x ∈ ch, x ≠ 0) :
    ∀ (cap : Nat) (r : List Nat), ch.length ≤ cap →
      chunkLen (ch ++ 0 :: r) cap = ch.length := by
  induction ch with
  | nil => intro cap r _; simp [chunkLen]
  | cons a ch2 ih =>
    intro cap r hlen
    have ha : a ≠ 0 := hch a (by simp)
    have hch2 : ∀ x ∈ ch2, x ≠ 0 := fun x hx => hch x (by simp [hx])
    simp only [List.cons_append, chunkLen, List.length_cons, List.append_eq]
    rw [if_neg (by simp at hlen ⊢; omega)]
    rw [ih hch2 (cap - 1) r (by simp at hlen; omega)]
    omega

/-- On an all-non-zero list that fits under the cap, the chunk is the whole
list. -/
theorem chunkLen_of_all (ch : List Nat) (hch : ∀ x ∈ ch, x ≠ 0) :
    ∀ cap, ch.length ≤ cap → chunkLen ch cap = ch.length := by
  induction ch with
  | nil => intro cap _; simp [chunkLen]
  | cons a ch2 ih =>
    intro cap hlen
    have ha : a ≠ 0 := hch a (by simp)
    have hch2 : ∀ x ∈ ch2, x ≠ 0 := fun x hx => hch x (by simp [hx])
    simp only [chunkLen, List.length_cons]
    rw [if_neg (by simp at hlen ⊢; omega)]
    rw [ih hch2 (cap - 1) (by simp at hlen; omega)]
    omega

/-- When at least `cap` non-zero bytes lead the list, the chunk is cut at the
cap. -/
theorem chunkLen_cap_le (ch : List Nat) (hch : ∀ x ∈ ch, x ≠ 0) :
    ∀ (cap : Nat) (r : List Nat), cap ≤ ch.length →
      chunkLen (ch ++ r) cap = cap := by
  induction ch with
  | nil =>
    intro cap r hlen
    simp at hlen
    subst hlen
    cases r with
    | nil => simp [chunkLen]
    | cons b r2 => simp [chunkLen]
  | cons a ch2 ih =>
    intro cap r hlen
    have ha : a ≠ 0 := hch a (by simp)
    have hch2 : ∀ x ∈ ch2, x ≠ 0 := fun x hx => hch x (by simp [hx])
    rcases Nat.eq_zero_or_pos cap with hc | hc
    · subst hc
      simp [chunkLen]
    · simp only [List.cons_append, chunkLen, List.append_eq]
      rw [if_neg (by omega)]
      rw [ih hch2 (cap - 1) r (by simp at hlen; omega)]
      omega

/-- Every byte inside the chunk is non-zero. -/
theorem chunkLen_take_ne_zero (l : List Nat) :
    ∀ cap, ∀ x ∈ l.take (chunkLen l cap), x ≠ 0 := by
  induction l with
  | nil => intro cap x hx; simp at hx
  | cons b rest ih =>
    intro cap x hx
    by_cases hc : b = 0 ∨ cap = 0
    · simp [chunkLen, if_pos hc] at hx
    · simp only [chunkLen, if_neg hc] at hx
      rw [show 1 + chunkLen rest (cap - 1) = chunkLen rest (cap - 1) + 1 from by omega,
        List.take_succ_cons] at hx
      rcases List.mem_cons.mp hx with h | h
      · subst h; exact fun h0 => hc (Or.inl h0)
      · exact ih (cap - 1) x h

/-- The chunk stops at the cap, at the end of the list, or right before a
zero byte. -/
theorem chunkLen_stop (l : List Nat) :
    ∀ cap, chunkLen l cap = cap ∨ l.drop (chunkLen l cap) = [] ∨
      ∃ r, l.drop (chunkLen l cap) = 0 :: r := by
  induction l with
  | nil => intro cap; right; left; simp
  | cons b rest ih =>
    intro cap
    by_cases hc : b = 0 ∨ cap = 0
    · rcases hc with hb | hcap
      · right; right
        subst hb
        exact ⟨rest, by simp [chunkLen]⟩
      · left
        subst hcap
        simp [chunkLen]
    · simp only [chunkLen, if_neg hc]
      rw [show 1 + chunkLen rest (cap - 1) = chunkLen rest (cap - 1) + 1 from by omega]
      rcases ih (cap - 1) with h | h | ⟨r, h⟩
      · left; omega
      · right; left; simpa using h
      · right; right; exact ⟨r, by simpa using h⟩

/-! ### Helper lemmas about `encSpec` -/

/-- Unfolding `encSpec` on an empty input. -/
theorem encSpec_nil : encSpec [] = [1, 0] := by
  unfold encSpec
  simp [chunkLen]

/-- Unfolding `encSpec` on a maximal chunk: 254 leading non-zero bytes. -/
theorem encSpec_maximal (ch r : List Nat) (hch : ∀ x ∈ ch, x ≠ 0)
    (hlen : ch.length = 254) :
    encSpec (ch ++ r) = (255 :: ch) ++ encSpec r := by
  have hcl : chunkLen (ch ++ r) 254 = 254 := chunkLen_cap_le ch hch 254 r (by omega)
  have htake : (ch ++ r).take 254 = ch := by rw [← hlen]; exact List.take_left ch r
  have hdrop : (ch ++ r).drop 254 = r := by rw [← hlen]; exact List.drop_left ch r
  conv_lhs => rw [encSpec]
  rw [dif_pos ⟨by simp; omega, hcl⟩, htake, hdrop]

/-- Unfolding `encSpec` on a short chunk terminated by a zero byte. -/
theorem encSpec_append_zero (ch r : List Nat) (hch : ∀ x ∈ ch, x ≠ 0)
    (hlen : ch.length ≤ 253) :
    encSpec (ch ++ 0 :: r) = ((ch.length + 1) :: ch) ++ encSpec r := by
  have hcl : chunkLen (ch ++ 0 :: r) 254 = ch.length :=
    chunkLen_append_zero ch hch 254 r (by omega)
  have htake : (ch ++ 0 :: r).take ch.length = ch := List.take_left ch (0 :: r)
  have hdrop : (ch ++ 0 :: r).drop (ch.length + 1) = r := by
    rw [show ch ++ 0 :: r = (ch ++ [0]) ++ r from by simp,
      show ch.length + 1 = (ch ++ [0]).length from by simp]
    exact List.drop_left _ _
  conv_lhs => rw [encSpec]
  rw [dif_neg (by rw [hcl]; omega)]
  rw [dif_neg (by rw [hcl]; simp)]
  rw [hcl, htake, hdrop]

/-- Unfolding `encSpec` on an all-non-zero input of at most 253 bytes (the
final chunk). -/
theorem encSpec_final (ch : List Nat) (hch : ∀ x ∈ ch, x ≠ 0)
    (hlen : ch.length ≤ 253) :
    encSpec ch = ((ch.length + 1) :: ch) ++ [0] := by
  have hcl : chunkLen ch 254 = ch.length := chunkLen_of_all ch hch 254 (by omega)
  conv_lhs => rw [encSpec]
  rw [dif_neg (by rw [hcl]; omega)]
  rw [dif_pos (by rw [hcl])]
  rw [hcl]
  rw [List.take_length]

/-- `firstZero` finds nothing on an all-non-zero list. -/
theorem firstZero_eq_none (l : List Nat) (h : ∀ x ∈ l, x ≠ 0) :
    firstZero l = none := by
  induction l with
  | nil => rfl
  | cons b rest ih =>
    have hb : b ≠ 0 := h b (by simp)
    simp only [firstZero, if_neg hb]
    rw [ih (fun x hx => h x (by simp [hx]))]
    rfl

/-- Any encoder output is at least two bytes longer than its input. -/
theorem encSpec_length_lb (src : List Nat) : src.length + 2 ≤ (encSpec src).length := by
  induction src using encSpec.induct with
  | case1 src h1 ih =>
    conv_rhs => rw [encSpec]
    rw [dif_pos h1]
    simp only [List.length_append, List.length_cons, List.length_take, List.length_drop, List.length_nil] at *
    omega
  | case2 src h1 h2 =>
    conv_rhs => rw [encSpec]
    rw [dif_neg h1, dif_pos h2]
    have := chunkLen_le_length src 254
    simp only [List.length_append, List.length_cons, List.length_take, List.length_nil]
    omega
  | case3 src h1 h2 ih =>
    conv_rhs => rw [encSpec]
    rw [dif_neg h1, dif_neg h2]
    have := chunkLen_le_length src 254
    simp only [List.length_append, List.length_cons, List.length_take, List.length_drop, List.length_nil] at *
    omega

/-- The encoder output length never exceeds `max_encoded_length` of the input
length. -/
theorem encSpec_length_ub (src : List Nat) :
    (encSpec src).length ≤ src.length + src.length / 254 + 2 := by
  induction src using encSpec.induct with
  | case1 src h1 ih =>
    conv_lhs => rw [encSpec]
    rw [dif_pos h1]
    have hdiv : (src.length - 254) / 254 + 1 = src.length / 254 := by
      rw [← Nat.add_div_right _ (show 0 < 254 from by norm_num)]
      congr 1
      omega
    simp only [List.length_append, List.length_cons, List.length_take,
      List.length_drop, List.length_nil] at *
    omega
  | case2 src h1 h2 =>
    conv_lhs => rw [encSpec]
    rw [dif_neg h1, dif_pos h2]
    have := chunkLen_le_length src 254
    simp only [List.length_append, List.length_cons, List.length_take, List.length_nil]
    omega
  | case3 src h1 h2 ih =>
    conv_lhs => rw [encSpec]
    rw [dif_neg h1, dif_neg h2]
    have h3 := chunkLen_le_length src 254
    have hdiv : (src.length - (chunkLen src 254 + 1)) / 254 ≤ src.length / 254 :=
      Nat.div_le_div_right (by omega)
    simp only [List.length_append, List.length_cons, List.length_take,
      List.length_drop, List.length_nil] at *
    omega

/-- The encoder output always starts with a non-zero offset byte. -/
theorem encSpec_cons (src : List Nat) :
    ∃ h t, encSpec src = h :: t ∧ h ≠ 0 := by
  rw [encSpec]
  split
  · exact ⟨255, _, rfl, by omega⟩
  · split
    · exact ⟨chunkLen src 254 + 1, _, rfl, by omega⟩
    · exact ⟨chunkLen src 254 + 1, _, rfl, by omega⟩

/-- Step of `decodeGo` over a terminal chunk: `n` data bytes then the zero
marker. -/
theorem decodeGo_step_last (dstLen : Nat) (data restE out : List Nat) (n c : Nat)
    (hdn : data.length = n) (hnz : ∀ x ∈ data, x ≠ 0)
    (hcap : out.length + n ≤ dstLen) :
    decodeGo dstLen (data ++ 0 :: restE) (n + 1) c out =
      (⟨DecodeStatus.OK, c + n + 1, out.length + n⟩, out ++ data) := by
  have htake : (data ++ 0 :: restE).take n = data := by
    rw [← hdn]; exact List.take_left _ _
  have hdropE : (data ++ 0 :: restE).drop n = 0 :: restE := by
    rw [← hdn]; exact List.drop_left _ _
  have hlenE : (data ++ 0 :: restE).length = n + 1 + restE.length := by
    simp; omega
  conv_lhs => rw [decodeGo]
  simp only [Nat.add_sub_cancel]
  rw [if_neg (by omega), if_neg (by omega)]
  split
  · rename_i i heq
    rw [htake, firstZero_eq_none data hnz] at heq
    exact absurd heq (by simp)
  · rename_i heq
    split
    · rename_i heq2
      rw [Nat.add_sub_cancel, hdropE] at heq2
      exact absurd heq2 (by simp)
    · rename_i next2 rest2 heq2
      rw [Nat.add_sub_cancel, hdropE] at heq2
      injection heq2 with h1 h2
      subst h1
      subst h2
      rw [if_pos rfl, htake]

/-- probe -/
theorem decodeGo_step_max (dstLen : Nat) (data out restE : List Nat) (next c : Nat)
    (hdn : data.length = 254) (hnz : ∀ x ∈ data, x ≠ 0) (hnext : next ≠ 0)
    (hcap : out.length + 254 ≤ dstLen) :
    decodeGo dstLen (data ++ next :: restE) 255 c out =
      decodeGo dstLen restE next (c + 254 + 1) (out ++ data) := by
  have htake : (data ++ next :: restE).take 254 = data := by
    rw [← hdn]; exact List.take_left _ _
  have hdropE : (data ++ next :: restE).drop 254 = next :: restE := by
    rw [← hdn]; exact List.drop_left _ _
  have hlenE : (data ++ next :: restE).length = 254 + 1 + restE.length := by
    simp; omega
  conv_lhs => rw [decodeGo]
  rw [show (255 : Nat) - 1 = 254 from rfl]
  rw [if_neg (by omega), if_neg (by omega)]
  split
  case _ heq =>
    rw [hdropE] at heq
    exact absurd heq (by simp)
  case _ next2 rest2 heq =>
    rw [hdropE] at heq
    injection heq with h1 h2
    subst h1
    subst h2
    simp only [htake, firstZero_eq_none data hnz]
    simp [hnext]

/-- Step of `decodeGo` over a non-maximal middle chunk (offset `n + 1`,
`n ≤ 253`): `n` data bytes, then the elided zero is reinserted and decoding
continues with the next offset. -/
theorem decodeGo_step_mid (dstLen : Nat) (data out restE : List Nat) (next n c : Nat)
    (hdn : data.length = n) (hn : n ≤ 253) (hnz : ∀ x ∈ data, x ≠ 0)
    (hnext : next ≠ 0) (hcap : out.length + n + 1 ≤ dstLen) :
    decodeGo dstLen (data ++ next :: restE) (n + 1) c out =
      decodeGo dstLen restE next (c + n + 1) ((out ++ data) ++ [0]) := by
  have htake : (data ++ next :: restE).take n = data := by
    rw [← hdn]; exact List.take_left _ _
  have hdropE : (data ++ next :: restE).drop n = next :: restE := by
    rw [← hdn]; exact List.drop_left _ _
  have hlenE : (data ++ next :: restE).length = n + 1 + restE.length := by
    simp; omega
  conv_lhs => rw [decodeGo]
  simp only [Nat.add_sub_cancel]
  rw [if_neg (by omega), if_neg (by omega)]
  split
  case _ i heq =>
    rw [htake, firstZero_eq_none data hnz] at heq
    exact absurd heq (by simp)
  case _ heq =>
    split
    case _ heq2 =>
      rw [Nat.add_sub_cancel, hdropE] at heq2
      exact absurd heq2 (by simp)
    case _ next2 rest2 heq2 =>
      rw [Nat.add_sub_cancel, hdropE] at heq2
      injection heq2 with h1 h2
      subst h1
      subst h2
      rw [if_neg hnext, if_neg (by omega), if_neg (by omega), htake]

/-- Decoding an encoder output consumes it entirely and reproduces the
original bytes, from any intermediate decoder state. -/
theorem decodeGo_encSpec (dstLen : Nat) (d : List Nat) :
    ∀ (h : Nat) (t : List Nat) (c : Nat) (out : List Nat),
      encSpec d = h :: t → out.length + d.length ≤ dstLen →
      decodeGo dstLen t h c out =
        (⟨DecodeStatus.OK, c + t.length, out.length + d.length⟩, out ++ d) := by
  induction d using encSpec.induct with
  | case1 d h1 ih =>
    intro h t c out henc hcap
    have hE : encSpec d = (255 :: d.take 254) ++ encSpec (d.drop 254) := by
      conv_lhs => rw [encSpec]
      rw [dif_pos h1]
    obtain ⟨h2, t2, hE2, hh2⟩ := encSpec_cons (d.drop 254)
    rw [hE, hE2] at henc
    simp only [List.cons_append] at henc
    injection henc with hh ht
    subst hh
    subst ht
    have hlen254 : (d.take 254).length = 254 := by
      rw [List.length_take]; omega
    have hnz : ∀ x ∈ d.take 254, x ≠ 0 := by
      intro x hx
      exact chunkLen_take_ne_zero d 254 x (by rw [h1.2]; exact hx)
    rw [decodeGo_step_max dstLen (d.take 254) out t2 h2 c hlen254 hnz hh2
      (by omega)]
    rw [ih h2 t2 (c + 254 + 1) (out ++ d.take 254) hE2
      (by simp only [List.length_append, List.length_drop]; omega)]
    simp only [Prod.mk.injEq, DecodeResult.mk.injEq, List.length_append,
      List.length_take, List.length_drop, List.length_cons]
    refine ⟨⟨trivial, by omega, by omega⟩, ?_⟩
    rw [List.append_assoc, List.take_append_drop]
  | case2 d h1 h2 =>
    intro h t c out henc hcap
    have hcl : chunkLen d 254 = d.length :=
      Nat.le_antisymm (chunkLen_le_length d 254) h2
    have hE : encSpec d = ((d.length + 1) :: d) ++ [0] := by
      conv_lhs => rw [encSpec]
      rw [dif_neg h1, dif_pos h2, hcl, List.take_length]
    rw [hE] at henc
    simp only [List.cons_append] at henc
    injection henc with hh ht
    subst hh
    subst ht
    have hnz : ∀ x ∈ d, x ≠ 0 := by
      intro x hx
      refine chunkLen_take_ne_zero d 254 x ?_
      rw [hcl, List.take_length]
      exact hx
    have hstep := decodeGo_step_last dstLen d [] out d.length c rfl hnz (by omega)
    simp only [show d ++ 0 :: [] = d ++ [0] from rfl] at hstep
    rw [hstep]
    simp only [Prod.mk.injEq, DecodeResult.mk.injEq, List.length_append,
      List.length_cons, List.length_nil]
    exact ⟨⟨trivial, by omega, trivial⟩, trivial⟩
  | case3 d h1 h2 ih =>
    intro h t c out henc hcap
    have hn_le : chunkLen d 254 ≤ 254 := chunkLen_le_cap d 254
    have hn_lt : chunkLen d 254 < d.length := by omega
    have hn253 : chunkLen d 254 ≤ 253 := by
      rcases Nat.lt_or_ge (chunkLen d 254) 254 with hlt | hge
      · omega
      · exfalso; exact h1 ⟨by omega, by omega⟩
    have hdropn : d.drop (chunkLen d 254) = 0 :: d.drop (chunkLen d 254 + 1) := by
      rcases chunkLen_stop d 254 with hs | hs | ⟨r, hs⟩
      · exfalso; exact h1 ⟨by omega, hs⟩
      · exfalso
        have := congrArg List.length hs
        simp only [List.length_drop, List.length_nil] at this
        omega
      · rw [hs]
        have ht2 := congrArg List.tail hs
        rw [List.tail_drop] at ht2
        simp only [List.tail_cons] at ht2
        rw [ht2]
    have hE : encSpec d =
        ((chunkLen d 254 + 1) :: d.take (chunkLen d 254)) ++
          encSpec (d.drop (chunkLen d 254 + 1)) := by
      conv_lhs => rw [encSpec]
      rw [dif_neg h1, dif_neg h2]
    obtain ⟨h3, t3, hE3, hh3⟩ := encSpec_cons (d.drop (chunkLen d 254 + 1))
    rw [hE, hE3] at henc
    simp only [List.cons_append] at henc
    injection henc with hh ht
    subst hh
    subst ht
    have hlenn : (d.take (chunkLen d 254)).length = chunkLen d 254 := by
      rw [List.length_take]; omega
    have hnz : ∀ x ∈ d.take (chunkLen d 254), x ≠ 0 :=
      fun x hx => chunkLen_take_ne_zero d 254 x hx
    rw [decodeGo_step_mid dstLen (d.take (chunkLen d 254)) out t3 h3
      (chunkLen d 254) c hlenn hn253 hnz hh3 (by omega)]
    rw [ih h3 t3 (c + chunkLen d 254 + 1) ((out ++ d.take (chunkLen d 254)) ++ [0]) hE3
      (by simp only [List.length_append, List.length_drop, List.length_cons,
        List.length_nil]; omega)]
    have hd : d = d.take (chunkLen d 254) ++ 0 :: d.drop (chunkLen d 254 + 1) := by
      conv_lhs => rw [← List.take_append_drop (chunkLen d 254) d]
      rw [hdropn]
    simp only [Prod.mk.injEq, DecodeResult.mk.injEq, List.length_append,
      List.length_take, List.length_drop, List.length_cons, List.length_nil]
    refine ⟨⟨trivial, by omega, by omega⟩, ?_⟩
    conv_rhs => rw [hd]
    simp [List.append_assoc]

/-- The encoder loop, run with enough destination capacity, succeeds and
produces exactly the reference output `encSpec` of the pending chunk followed
by the remaining input. -/
theorem encodeGo_spec (dstLen : Nat) (src : List Nat) :
    ∀ (acc chunk : List Nat) (ws : List (Nat × Nat)),
      (∀ x ∈ chunk, x ≠ 0) → chunk.length ≤ 253 →
      acc.length + (encSpec (chunk ++ src)).length ≤ dstLen →
      (encodeGo dstLen src acc chunk ws).1 =
        ⟨EncodeStatus.OK, acc.length + (encSpec (chunk ++ src)).length⟩ ∧
      (encodeGo dstLen src acc chunk ws).2.1 = acc ++ encSpec (chunk ++ src) := by
  induction src with
  | nil =>
    intro acc chunk ws hch hlen hcap
    rw [List.append_nil] at hcap ⊢
    rw [encSpec_final chunk hch hlen] at hcap ⊢
    simp only [encodeGo]
    rw [if_neg (by simp at hcap ⊢; omega)]
    constructor
    · simp only [EncodeResult.mk.injEq, List.length_append, List.length_cons,
        List.length_nil]
      exact ⟨trivial, by omega⟩
    · simp [List.append_assoc]
  | cons b rest ih =>
    intro acc chunk ws hch hlen hcap
    by_cases hb : b = 0
    · subst hb
      rw [encSpec_append_zero chunk rest hch hlen] at hcap ⊢
      simp only [encodeGo]
      rw [if_pos trivial]
      have ih2 := ih (acc ++ (chunk.length + 1) :: chunk) []
        (ws ++ [(acc.length, chunk.length + 1)]) (by simp) (by simp)
        (by simp only [List.nil_append, List.length_append, List.length_cons,
              List.length_nil] at hcap ⊢
            omega)
      simp only [List.nil_append] at ih2
      refine ⟨?_, ?_⟩
      · rw [ih2.1]
        simp only [EncodeResult.mk.injEq, List.length_append, List.length_cons]
        exact ⟨trivial, by omega⟩
      · rw [ih2.2]
        simp [List.append_assoc]
    · simp only [encodeGo, if_neg hb]
      have hlb := encSpec_length_lb (chunk ++ b :: rest)
      rw [if_neg (by simp only [List.length_append, List.length_cons] at hcap hlb; omega)]
      have hsplit : chunk ++ b :: rest = (chunk ++ [b]) ++ rest := by simp
      have hch2 : ∀ x ∈ chunk ++ [b], x ≠ 0 := by
        intro x hx
        rcases List.mem_append.mp hx with h | h
        · exact hch x h
        · simp at h; subst h; exact hb
      by_cases hmax : chunk.length + 2 = 255
      · rw [if_pos hmax]
        rw [hsplit] at hcap ⊢
        rw [encSpec_maximal (chunk ++ [b]) rest hch2 (by simp; omega)] at hcap ⊢
        have ih2 := ih (acc ++ 255 :: (chunk ++ [b])) []
          ((ws ++ [(acc.length + 1 + chunk.length, b)]) ++ [(acc.length, 255)])
          (by simp) (by simp)
          (by simp only [List.nil_append, List.length_append, List.length_cons,
                List.length_nil] at hcap ⊢
              omega)
        simp only [List.nil_append] at ih2
        refine ⟨?_, ?_⟩
        · rw [ih2.1]
          simp only [EncodeResult.mk.injEq, List.length_append, List.length_cons]
          exact ⟨trivial, by omega⟩
        · rw [ih2.2]
          simp [List.append_assoc]
      · rw [if_neg hmax]
        rw [hsplit] at hcap ⊢
        exact ih acc (chunk ++ [b]) (ws ++ [(acc.length + 1 + chunk.length, b)])
          hch2 (by simp; omega) hcap

/-- `encode` with enough capacity returns OK and produces exactly `encSpec`. -/
theorem encode_spec (d : List Nat) (dstLen : Nat)
    (hcap : (encSpec d).length ≤ dstLen) :
    (encode d dstLen).1 = ⟨EncodeStatus.OK, (encSpec d).length⟩ ∧
    (encode d dstLen).2.1 = encSpec d := by
  have h := encodeGo_spec dstLen d [] [] [] (by simp) (by simp)
    (by simpa using hcap)
  simpa using h

/-- Decoding an encoder output with enough capacity succeeds, consumes the
whole encoding and reproduces the input. -/
theorem decode_encSpec (d : List Nat) (dstLen : Nat) (hcap : d.length ≤ dstLen) :
    decode (encSpec d) dstLen =
      (⟨DecodeStatus.OK, (encSpec d).length, d.length⟩, d) := by
  obtain ⟨h, t, hE, hh⟩ := encSpec_cons d
  rw [hE]
  simp only [decode]
  rw [if_neg hh]
  rw [decodeGo_encSpec dstLen d h t 1 [] hE (by simpa using hcap)]
  simp only [Prod.mk.injEq, DecodeResult.mk.injEq, List.length_nil,
    List.nil_append, List.length_cons]
  exact ⟨⟨trivial, by omega, by omega⟩, trivial⟩

/-- The exact encoded length of an all-identical non-zero input: the
`max_encoded_length` bound is attained. -/
theorem encSpec_replicate_length (x : Nat) (hx : x ≠ 0) :
    ∀ L, (encSpec (List.replicate L x)).length = L + L / 254 + 2 := by
  intro L
  induction L using Nat.strong_induction_on with
  | _ L ih =>
    have hmem : ∀ y ∈ List.replicate L x, y ≠ 0 := by
      intro y hy
      rw [List.eq_of_mem_replicate hy]
      exact hx
    rcases Nat.lt_or_ge L 254 with hL | hL
    · rw [encSpec_final (List.replicate L x) hmem
        (by rw [List.length_replicate]; omega)]
      simp only [List.length_append, List.length_cons, List.length_nil,
        List.length_replicate]
      rw [Nat.div_eq_of_lt hL]
    · have hsplit : List.replicate L x =
          List.replicate 254 x ++ List.replicate (L - 254) x := by
        have hsum : 254 + (L - 254) = L := by omega
        conv_lhs => rw [← hsum]
        exact List.replicate_add 254 (L - 254) x
      have hmem254 : ∀ y ∈ List.replicate 254 x, y ≠ 0 := by
        intro y hy
        rw [List.eq_of_mem_replicate hy]
        exact hx
      rw [hsplit, encSpec_maximal _ _ hmem254 (by rw [List.length_replicate])]
      have hdiv : (L - 254) / 254 + 1 = L / 254 := by
        rw [← Nat.add_div_right _ (show 0 < 254 from by norm_num)]
        congr 1
        omega
      have hrec := ih (L - 254) (by omega)
      simp only [List.length_append, List.length_cons, List.length_replicate, hrec]
      omega

/-- The while loop of the cobs_lib decoder can never exit when the initial
offset is non-zero, because the loop condition variable is never updated. -/
theorem decodeLibLoop_none (src : List Nat) (zeroOffset : Nat)
    (hz : zeroOffset ≠ 0) :
    ∀ (fuel srcIdx dstIdx : Nat) (wz : Bool) (dst : List Nat),
      decodeLibLoop src zeroOffset fuel srcIdx dstIdx wz dst = none := by
  intro fuel
  induction fuel with
  | zero => intro srcIdx dstIdx wz dst; rfl
  | succ fuel ih =>
    intro srcIdx dstIdx wz dst
    simp only [decodeLibLoop, if_neg hz]
    exact ih _ _ _ _

/-- C1: round-trip.  For every byte sequence `d`, encoding into a buffer of
capacity `max_encoded_length (len d)` returns OK with `produced` equal to the
encoded length, and decoding the encoded bytes into a buffer of capacity
`len d` returns OK, consumes the full encoded length, and produces exactly
`len d` bytes equal to `d`. -/
theorem encode_decode_round_trip (d : List Nat) (hbytes : ∀ b ∈ d, b < 256) :
    (encode d (maxEncodedLength d.length)).1.status = EncodeStatus.OK ∧
    (encode d (maxEncodedLength d.length)).1.produced =
      (encode d (maxEncodedLength d.length)).2.1.length ∧
    (decode (encode d (maxEncodedLength d.length)).2.1 d.length).1.status =
      DecodeStatus.OK ∧
    (decode (encode d (maxEncodedLength d.length)).2.1 d.length).1.consumed =
      (encode d (maxEncodedLength d.length)).2.1.length ∧
    (decode (encode d (maxEncodedLength d.length)).2.1 d.length).1.produced =
      d.length ∧
    (decode (encode d (maxEncodedLength d.length)).2.1 d.length).2 = d := by
  have hub := encSpec_length_ub d
  have hcap : (encSpec d).length ≤ maxEncodedLength d.length := by
    unfold maxEncodedLength
    omega
  obtain ⟨hE1, hE2⟩ := encode_spec d (maxEncodedLength d.length) hcap
  rw [hE1, hE2, decode_encSpec d d.length (Nat.le_refl _)]
  simp

/-- C1 witness: the round-trip theorem applied to the concrete byte sequence
`[1, 0, 2]`. -/
theorem encode_decode_round_trip_witness :
    (∀ b ∈ [1, 0, 2], b < 256) ∧
    (decode (encode [1, 0, 2] (maxEncodedLength (List.length [1, 0, 2]))).2.1
      (List.length [1, 0, 2])).2 = [1, 0, 2] :=
  ⟨by decide, (encode_decode_round_trip [1, 0, 2] (by decide)).2.2.2.2.2⟩

/-- C2: bound tightness.  `encode` into a destination of capacity exactly
`max_encoded_length (len d)` never returns WRITE_OVERFLOW, for any byte
sequence `d`. -/
theorem encode_bound (d : List Nat) (hbytes : ∀ b ∈ d, b < 256) :
    (encode d (maxEncodedLength d.length)).1.status ≠
      EncodeStatus.WRITE_OVERFLOW := by
  have hub := encSpec_length_ub d
  have hcap : (encSpec d).length ≤ maxEncodedLength d.length := by
    unfold maxEncodedLength
    omega
  rw [(encode_spec d (maxEncodedLength d.length) hcap).1]
  simp

/-- C2 witness: the bound-tightness theorem applied to the concrete byte
sequence `[1, 0, 255]`. -/
theorem encode_bound_witness :
    (∀ b ∈ [1, 0, 255], b < 256) ∧
    (encode [1, 0, 255] (maxEncodedLength (List.length [1, 0, 255]))).1.status ≠
      EncodeStatus.WRITE_OVERFLOW :=
  ⟨by decide, encode_bound [1, 0, 255] (by decide)⟩

/-- C3: decode bound tightness.  For every validly-encoded input `e` (an
output of `encode`), decoding into a destination of capacity exactly
`max_decoded_length (len e) = len e - 2` never returns WRITE_OVERFLOW. -/
theorem decode_bound (e : List Nat) (he : ValidEncoding e) :
    (decode e (maxDecodedLength e.length)).1.status ≠
      DecodeStatus.WRITE_OVERFLOW := by
  obtain ⟨d, hbytes, hd⟩ := he
  have hub := encSpec_length_ub d
  have hlb := encSpec_length_lb d
  have hcap : (encSpec d).length ≤ maxEncodedLength d.length := by
    unfold maxEncodedLength
    omega
  rw [hd, (encode_spec d (maxEncodedLength d.length) hcap).2]
  rw [decode_encSpec d (maxDecodedLength (encSpec d).length)
    (by unfold maxDecodedLength; omega)]
  simp

/-- C3 witness: the decode bound theorem applied to the valid encoding
`[1, 0]` (the encoding of the empty sequence). -/
theorem decode_bound_witness :
    ValidEncoding [1, 0] ∧
    (decode [1, 0] (maxDecodedLength (List.length [1, 0]))).1.status ≠
      DecodeStatus.WRITE_OVERFLOW :=
  ⟨⟨[], by decide, by decide⟩, decode_bound [1, 0] ⟨[], by decide, by decide⟩⟩

/-- C4 counterexample: at `decoded_length = 2 ^ 64 - 1` (representable in a
64-bit `size_t`), the value `max_encoded_length` computes in `size_t`
arithmetic wraps: it differs from `decoded_length + decoded_length / 254 + 2`
and undershoots both the unbounded formula and the true maximum encoded
length, attained by an all-ones input of that length. -/
theorem maxEncodedLength64_wraps :
    maxEncodedLength64 (2 ^ 64 - 1) ≠ (2 ^ 64 - 1) + (2 ^ 64 - 1) / 254 + 2 ∧
    maxEncodedLength64 (2 ^ 64 - 1) < maxEncodedLength (2 ^ 64 - 1) ∧
    maxEncodedLength64 (2 ^ 64 - 1) <
      (encSpec (List.replicate (2 ^ 64 - 1) 1)).length := by
  refine ⟨by decide, by decide, ?_⟩
  rw [encSpec_replicate_length 1 (by decide) (2 ^ 64 - 1)]
  decide

/-- C4 amended: whenever `decoded_length + decoded_length / 254 + 2 < 2 ^ 64`
(no `size_t` overflow), `max_encoded_length` computed in 64-bit arithmetic
equals the unbounded formula `decoded_length + decoded_length / 254 + 2`, and
the result never undershoots: encoding any input of that length into a buffer
of that capacity succeeds. -/
theorem maxEncodedLength_no_wrap (dl : Nat)
    (hdl : dl + dl / 254 + 2 < 2 ^ 64) :
    maxEncodedLength64 dl = maxEncodedLength dl ∧
    maxEncodedLength dl = dl + dl / 254 + 2 ∧
    ∀ d : List Nat, d.length = dl →
      (encode d (maxEncodedLength dl)).1.status = EncodeStatus.OK := by
  refine ⟨?_, rfl, ?_⟩
  · unfold maxEncodedLength64 maxEncodedLength
    exact Nat.mod_eq_of_lt hdl
  · intro d hd
    subst hd
    have hub := encSpec_length_ub d
    have hcap : (encSpec d).length ≤ maxEncodedLength d.length := by
      unfold maxEncodedLength
      omega
    rw [(encode_spec d (maxEncodedLength d.length) hcap).1]

/-- C4 witness: the amended theorem applied at `decoded_length = 508` with
input `List.replicate 508 1`. -/
theorem maxEncodedLength_no_wrap_witness :
    508 + 508 / 254 + 2 < 2 ^ 64 ∧
    maxEncodedLength64 508 = maxEncodedLength 508 ∧
    (encode (List.replicate 508 1) (maxEncodedLength 508)).1.status =
      EncodeStatus.OK :=
  ⟨by decide, (maxEncodedLength_no_wrap 508 (by decide)).1,
    (maxEncodedLength_no_wrap 508 (by decide)).2.2 (List.replicate 508 1)
      (by rw [List.length_replicate])⟩

/-- C5: refutation by evaluation.  `encode` does write outside the
destination capacity: with empty source and capacity 0 it stores the offset
byte 1 at index 0 (beyond the buffer) before returning WRITE_OVERFLOW, and
with source `[0, 0]` and capacity 1 it stores offset bytes at indices 1 and 2
(beyond the buffer).  The write trace records every store the C++ code
performs. -/
theorem encode_oob_writes :
    (encode [] 0).1 = ⟨EncodeStatus.WRITE_OVERFLOW, 0⟩ ∧
    (encode [] 0).2.2 = [(0, 1)] ∧
    (encode [0, 0] 1).1 = ⟨EncodeStatus.WRITE_OVERFLOW, 0⟩ ∧
    (encode [0, 0] 1).2.2 = [(0, 1), (1, 1), (2, 1)] := by
  decide

set_option maxRecDepth 40000 in
/-- C6 counterexample: encoding 254 copies of the non-zero byte 3 does not
produce the 256-byte `[0xFF] ++ [3] * 254 ++ [0x00]` claimed by the spec (the
implementation writes the standard, not the reduced, form). -/
theorem encode_254_not_reduced :
    (encode (List.replicate 254 3) (maxEncodedLength 254)).2.1 ≠
      255 :: (List.replicate 254 3 ++ [0]) := by
  decide

/-- C6 amended: for every non-zero byte `x`, encoding 254 copies of `x` into
a buffer of capacity `max_encoded_length 254 = 257` returns OK producing the
257-byte standard form `[0xFF] ++ [x] * 254 ++ [0x01, 0x00]`, and decoding
that form returns the original 254 bytes with OK, consuming all 257 bytes. -/
theorem encode_maximal_chunk (x : Nat) (hx : x ≠ 0) :
    (encode (List.replicate 254 x) (maxEncodedLength 254)).1 =
      ⟨EncodeStatus.OK, 257⟩ ∧
    (encode (List.replicate 254 x) (maxEncodedLength 254)).2.1 =
      255 :: (List.replicate 254 x ++ [1, 0]) ∧
    decode (255 :: (List.replicate 254 x ++ [1, 0])) 254 =
      (⟨DecodeStatus.OK, 257, 254⟩, List.replicate 254 x) := by
  have hmem : ∀ y ∈ List.replicate 254 x, y ≠ 0 := by
    intro y hy
    rw [List.eq_of_mem_replicate hy]
    exact hx
  have hE : encSpec (List.replicate 254 x) =
      255 :: (List.replicate 254 x ++ [1, 0]) := by
    conv_lhs => rw [← List.append_nil (List.replicate 254 x)]
    rw [encSpec_maximal _ _ hmem (by rw [List.length_replicate]), encSpec_nil]
    rw [List.cons_append]
  have hlen : (encSpec (List.replicate 254 x)).length = 257 := by
    rw [hE]
    simp only [List.length_cons, List.length_append, List.length_replicate,
      List.length_nil]
  have hcap : (encSpec (List.replicate 254 x)).length ≤ maxEncodedLength 254 := by
    rw [hlen]
    decide
  have hdec := decode_encSpec (List.replicate 254 x) 254
    (by rw [List.length_replicate])
  rw [hlen, hE, List.length_replicate] at hdec
  obtain ⟨h1, h2⟩ := encode_spec (List.replicate 254 x) (maxEncodedLength 254) hcap
  refine ⟨?_, ?_, ?_⟩
  · rw [h1, hlen]
  · rw [h2, hE]
  · exact hdec

/-- C6 witness: the maximal-chunk theorem applied at `x = 1`. -/
theorem encode_maximal_chunk_witness :
    (1 : Nat) ≠ 0 ∧
    (encode (List.replicate 254 1) (maxEncodedLength 254)).1 =
      ⟨EncodeStatus.OK, 257⟩ :=
  ⟨by decide, (encode_maximal_chunk 1 (by decide)).1⟩

/-- C7: refutation by evaluation.  The reduced encoder of
src/cobs_lib/cobs.cpp skips the final offset write (when the final offset is
1) without rolling back `dst_copy_idx`, so its returned encoding covers an
index it never wrote: on input `[0]` it returns count 3 with the byte at
index 1 left at whatever the destination previously held.  The resulting
bytes do not decode back to `[0]`: with a zeroed buffer the output
`[1, 0, 0]` decodes to `[]` (OK after 2 bytes), and with the stale byte 7 the
output `[1, 7, 0]` fails with READ_OVERFLOW. -/
theorem encodeLib_reduced_hole :
    (encodeLib [0] (List.replicate 4 0)).1 = 3 ∧
    (encodeLib [0] (List.replicate 4 0)).2.take 3 = [1, 0, 0] ∧
    (encodeLib [0] (List.replicate 4 7)).2.take 3 = [1, 7, 0] ∧
    decode [1, 0, 0] 4 = (⟨DecodeStatus.OK, 2, 0⟩, []) ∧
    decode [1, 7, 0] 4 = (⟨DecodeStatus.READ_OVERFLOW, 0, 0⟩, [0]) := by
  refine ⟨by decide, by decide, by decide, ?_, ?_⟩
  · simp [decode, decodeGo, firstZero]
  · simp [decode, decodeGo, firstZero]

/-- C8: corrupted stream.  Decoding `[0x02, 0x00, 0x00]` (the offset claims
one data byte, but that byte is the marker) returns UNEXPECTED_ZERO with
`consumed = 2` and `produced = 0`, for any destination capacity of at least
one byte. -/
theorem decode_corrupt (cap : Nat) (hcap : 1 ≤ cap) :
    decode [2, 0, 0] cap = (⟨DecodeStatus.UNEXPECTED_ZERO, 2, 0⟩, []) := by
  simp only [decode]
  rw [if_neg (by decide)]
  conv_lhs => rw [decodeGo]
  norm_num
  rw [if_neg (by omega)]
  simp [firstZero]

/-- C8 witness: the corrupted-stream theorem applied at capacity 1. -/
theorem decode_corrupt_witness :
    1 ≤ 1 ∧ decode [2, 0, 0] 1 = (⟨DecodeStatus.UNEXPECTED_ZERO, 2, 0⟩, []) :=
  ⟨Nat.le_refl 1, decode_corrupt 1 (Nat.le_refl 1)⟩

/-- C9: leading marker.  For every non-empty source whose first byte is the
marker 0x00, `decode` fails immediately with UNEXPECTED_ZERO, reporting
`consumed = 1` and `produced = 0`, regardless of the destination capacity. -/
theorem decode_leading_zero (rest : List Nat) (cap : Nat) :
    decode (0 :: rest) cap = (⟨DecodeStatus.UNEXPECTED_ZERO, 1, 0⟩, []) := rfl

/-- C10: refutation of termination for the cobs_lib decoder.  Its while loop
never updates `zero_offset`, so on the valid two-byte encoding `[1, 0]` the
loop never exits no matter how much fuel it is given, while the decoder of
src/unnamed/part_000 terminates with OK on the same input. -/
theorem decodeLib_non_termination :
    (∀ (fuel : Nat) (dst : List Nat), decodeLib fuel [1, 0] dst = none) ∧
    (decode [1, 0] 0).1.status = DecodeStatus.OK := by
  constructor
  · intro fuel dst
    simp only [decodeLib]
    exact decodeLibLoop_none [1, 0] 1 (by decide) fuel 0 0 false dst
  · simp [decode, decodeGo, firstZero]

end Cobs
